import Mathlib

/-!
Verification of the access-control and execution-safety core of the
orcaslicer-mcp server (src/utils.ts, src/index.ts, src/config.ts).

JavaScript strings are modelled as `List Char` (`JStr`); absolute POSIX
paths are modelled as lists of path segments (`List Seg`).  All
definitions are shallow embeddings of the corresponding TypeScript
functions; fallible operations return `Except CoreError _`.
-/

/-- A JavaScript string, modelled as a list of characters. -/
abbrev JStr := List Char

/-- A single path segment (the text between two `/` separators). -/
abbrev Seg := List Char

/-- The error taxonomy of src/utils.ts: SandboxError (FORBIDDEN),
FileNotFoundError, ParseError and CliExecutionError. -/
inductive CoreError where
  | accessDenied (msg : JStr)
  | notFound (path : JStr)
  | parseFailure (msg : JStr)
  | processFailure (msg : JStr) (exitCode : Option Int)
deriving DecidableEq, Repr

instance {ε α : Type} [DecidableEq ε] [DecidableEq α] : DecidableEq (Except ε α) := fun a b =>
  match a, b with
  | .ok x, .ok y => if h : x = y then .isTrue (by rw [h]) else .isFalse (by intro hc; cases hc; exact h rfl)
  | .error x, .error y => if h : x = y then .isTrue (by rw [h]) else .isFalse (by intro hc; cases hc; exact h rfl)
  | .ok _, .error _ => .isFalse (by intro hc; cases hc)
  | .error _, .ok _ => .isFalse (by intro hc; cases hc)

/-- Prepend a character onto the first piece of a split result. -/
def consHead (c : Char) : List JStr → List JStr
  | [] => [[c]]
  | p :: ps => (c :: p) :: ps

/-- Split a character list at every occurrence of `sep`
(JavaScript `String.prototype.split` with a single-character separator:
the result is never empty, and splitting the empty string gives `[[]]`). -/
def splitChar (sep : Char) : JStr → List JStr
  | [] => [[]]
  | c :: rest =>
    if c = sep then [] :: splitChar sep rest
    else consHead c (splitChar sep rest)

/-- One step of POSIX path normalization over segments: empty and `.`
segments are dropped, `..` pops the previous segment (and is dropped at
the root), every other segment is kept. -/
def normStep (acc : List Seg) (seg : Seg) : List Seg :=
  if seg = [] ∨ seg = ['.'] then acc
  else if seg = ['.', '.'] then acc.dropLast
  else acc ++ [seg]

/-- Normalize a list of raw segments (the segment-level content of
Node's `path.posix.normalize` on an absolute path). -/
def normalizeSegs (l : List Seg) : List Seg := l.foldl normStep []

/-- Node `path.posix.resolve(raw)` relative to a current working
directory given as normalized absolute segments: absolute inputs are
normalized on their own, relative inputs are appended to the cwd. -/
def resolveP (cwd : List Seg) (raw : JStr) : List Seg :=
  if raw.head? = some '/' then normalizeSegs (splitChar '/' raw)
  else normalizeSegs (cwd ++ splitChar '/' raw)

/-- Join segments with `/` separators (no leading slash). -/
def joinSegs : List Seg → JStr
  | [] => []
  | [s] => s
  | s :: rest => s ++ '/' :: joinSegs rest

/-- Render an absolute segment list as a path string (`/` for the root). -/
def renderAbs (segs : List Seg) : JStr := '/' :: joinSegs segs

/-- Strip the common leading segments of two segment lists. -/
def dropCommon : List Seg → List Seg → List Seg × List Seg
  | a :: as, b :: bs => if a = b then dropCommon as bs else (a :: as, b :: bs)
  | as, bs => (as, bs)

/-- Node `path.posix.relative(fr, t)` on two normalized absolute
segment lists: one `..` per leftover segment of `fr`, then the leftover
segments of `t`. -/
def relativeSegs (fr t : List Seg) : JStr :=
  let p := dropCommon fr t
  joinSegs (List.replicate p.1.length ['.', '.'] ++ p.2)

/-- The per-root containment test of `resolveSandboxed`
(src/utils.ts:26-30): the relative path from the root must not start
with `..` and must not be absolute. -/
def insideRoot (root cand : List Seg) : Bool :=
  let rel := relativeSegs root cand
  !(decide (rel.take 2 = ['.', '.'])) && !(decide (rel.head? = some '/'))

/-- The ambient configuration: the process working directory (normalized
absolute segments) and the two configured root strings WORKDIR and
ORCA_USER_DIR (src/config.ts). -/
structure Ctx where
  cwd : List Seg
  WORKDIR : JStr
  ORCA_USER_DIR : JStr

/-- `getAllowedRoots` (src/utils.ts:10-12): the two resolved roots. -/
def getAllowedRoots (ctx : Ctx) : List (List Seg) :=
  [resolveP ctx.cwd ctx.WORKDIR, resolveP ctx.cwd ctx.ORCA_USER_DIR]

/-- Join a list of rendered paths with `", "` (JavaScript `Array.join`). -/
def joinComma : List JStr → JStr
  | [] => []
  | [s] => s
  | s :: rest => s ++ ',' :: ' ' :: joinComma rest

/-- The SandboxError message built at src/utils.ts:33-35. -/
def sandboxMsg (raw : JStr) (normalised : List Seg) (roots : List (List Seg)) : JStr :=
  "Access denied: path \"".toList ++ raw ++
  "\" resolves to \"".toList ++ renderAbs normalised ++
  "\" which is outside the allowed directories: ".toList ++
  joinComma (roots.map renderAbs)

/-- `resolveSandboxed` (src/utils.ts:20-38): resolve and normalize the
raw path (`normalize(resolve(raw))`), accept it iff it is inside some
allowed root, otherwise fail with a SandboxError carrying the audit
message. -/
def resolveSandboxed (ctx : Ctx) (raw : JStr) : Except CoreError (List Seg) :=
  if (getAllowedRoots ctx).any
      (fun root => insideRoot root (normalizeSegs (resolveP ctx.cwd raw))) then
    .ok (normalizeSegs (resolveP ctx.cwd raw))
  else
    .error (.accessDenied
      (sandboxMsg raw (normalizeSegs (resolveP ctx.cwd raw)) (getAllowedRoots ctx)))

/-- First-character class of SAFE_FILENAME_RE (src/utils.ts:83):
`[a-zA-Z0-9_\-]`. -/
def isFirstSafe (c : Char) : Bool :=
  c.isAlpha || c.isDigit || c = '_' || c = '-'

/-- Remaining-character class of SAFE_FILENAME_RE: `[a-zA-Z0-9_\-. ]`. -/
def isRestSafe (c : Char) : Bool :=
  isFirstSafe c || c = '.' || c = ' '

/-- The test of SAFE_FILENAME_RE against a whole filename. -/
def safeFilenameTest (name : JStr) : Bool :=
  match name with
  | [] => false
  | c :: rest => isFirstSafe c && rest.all isRestSafe

/-- The SandboxError message of `validateFilename` (src/utils.ts:87-89). -/
def filenameMsg (name : JStr) : JStr :=
  "Invalid filename \"".toList ++ name ++
  "\": only alphanumerics, underscores, hyphens, periods, and spaces are allowed.".toList

/-- `validateFilename` (src/utils.ts:85-91). -/
def validateFilename (name : JStr) : Except CoreError Unit :=
  if safeFilenameTest name then .ok ()
  else .error (.accessDenied (filenameMsg name))

/-- A segment as produced by normalization: nonempty, not `.` or `..`,
and containing no separator. -/
def GoodSeg (s : Seg) : Prop :=
  s ≠ [] ∧ s ≠ ['.'] ∧ s ≠ ['.', '.'] ∧ '/' ∉ s

instance (s : Seg) : Decidable (GoodSeg s) := by unfold GoodSeg; infer_instance

/-- All segments of a path are good. -/
def NiceSegs (l : List Seg) : Prop := ∀ s ∈ l, GoodSeg s

instance (l : List Seg) : Decidable (NiceSegs l) := by unfold NiceSegs; infer_instance

/-- The configured cwd is a normalized absolute path. -/
def NiceCtx (ctx : Ctx) : Prop := NiceSegs ctx.cwd

instance (ctx : Ctx) : Decidable (NiceCtx ctx) := by unfold NiceCtx; infer_instance

theorem consHead_ne_nil (c : Char) (l : List JStr) : consHead c l ≠ [] := by
  cases l <;> simp [consHead]

theorem consHead_append (c : Char) (xs ys : List JStr) (h : xs ≠ []) :
    consHead c (xs ++ ys) = consHead c xs ++ ys := by
  cases xs with
  | nil => exact absurd rfl h
  | cons p ps => simp [consHead]

theorem splitChar_ne_nil (sep : Char) (l : JStr) : splitChar sep l ≠ [] := by
  cases l with
  | nil => simp [splitChar]
  | cons c rest =>
    simp only [splitChar]
    split
    · simp
    · exact consHead_ne_nil c _

theorem splitChar_append_cons (sep : Char) (a b : JStr) :
    splitChar sep (a ++ sep :: b) = splitChar sep a ++ splitChar sep b := by
  induction a with
  | nil => simp [splitChar]
  | cons c a ih =>
    show splitChar sep (c :: (a ++ sep :: b)) = splitChar sep (c :: a) ++ splitChar sep b
    simp only [splitChar]
    split
    · simp [ih]
    · rw [ih, consHead_append c _ _ (splitChar_ne_nil sep a)]

theorem splitChar_no_sep (sep : Char) (l : JStr) :
    ∀ p ∈ splitChar sep l, sep ∉ p := by
  induction l with
  | nil => simp [splitChar]
  | cons c rest ih =>
    intro p hp
    simp only [splitChar] at hp
    split at hp
    · rcases List.mem_cons.mp hp with h | h
      · subst h; simp
      · exact ih p h
    · rename_i hcs
      cases hsp : splitChar sep rest with
      | nil => exact absurd hsp (splitChar_ne_nil sep rest)
      | cons q qs =>
        rw [hsp] at hp
        simp only [consHead] at hp
        rcases List.mem_cons.mp hp with h | h
        · subst h
          intro hmem
          rcases List.mem_cons.mp hmem with h1 | h1
          · exact hcs h1.symm
          · exact ih q (hsp ▸ List.mem_cons_self q qs) h1
        · exact ih p (hsp ▸ List.mem_cons_of_mem q h)

theorem splitChar_of_no_sep (sep : Char) (l : JStr) (h : sep ∉ l) :
    splitChar sep l = [l] := by
  induction l with
  | nil => simp [splitChar]
  | cons c rest ih =>
    simp only [List.mem_cons, not_or] at h
    simp only [splitChar, if_neg (show ¬ c = sep from fun hc => h.1 hc.symm)]
    rw [ih h.2]
    simp [consHead]

theorem foldl_normStep_nice (l : List Seg) (hl : ∀ s ∈ l, '/' ∉ s) :
    ∀ acc, NiceSegs acc → NiceSegs (List.foldl normStep acc l) := by
  induction l with
  | nil => intro acc hacc; simpa using hacc
  | cons s rest ih =>
    intro acc hacc
    simp only [List.foldl_cons]
    apply ih (fun t ht => hl t (List.mem_cons_of_mem s ht))
    unfold normStep
    split
    · exact hacc
    · split
      · intro t ht; exact hacc t (List.mem_of_mem_dropLast ht)
      · rename_i h1 h2
        intro t ht
        rcases List.mem_append.mp ht with h | h
        · exact hacc t h
        · rcases List.mem_singleton.mp h with rfl
          push_neg at h1
          exact ⟨h1.1, h1.2, h2, hl _ (List.mem_cons_self _ _)⟩

theorem normalizeSegs_nice (l : List Seg) (hl : ∀ s ∈ l, '/' ∉ s) :
    NiceSegs (normalizeSegs l) :=
  foldl_normStep_nice l hl [] (by intro s hs; simp at hs)

theorem foldl_normStep_fix (l : List Seg) (hl : NiceSegs l) :
    ∀ acc, List.foldl normStep acc l = acc ++ l := by
  induction l with
  | nil => simp
  | cons s rest ih =>
    intro acc
    obtain ⟨h1, h2, h3, _⟩ := hl s (List.mem_cons_self s rest)
    simp only [List.foldl_cons]
    rw [show normStep acc s = acc ++ [s] by
      unfold normStep
      rw [if_neg (by push_neg; exact ⟨h1, h2⟩), if_neg h3]]
    rw [ih (fun t ht => hl t (List.mem_cons_of_mem s ht))]
    simp

theorem normalizeSegs_fix (l : List Seg) (hl : NiceSegs l) :
    normalizeSegs l = l := by
  unfold normalizeSegs
  rw [foldl_normStep_fix l hl]
  simp

theorem resolveP_nice (ctx : Ctx) (hctx : NiceCtx ctx) (raw : JStr) :
    NiceSegs (resolveP ctx.cwd raw) := by
  unfold resolveP
  split
  · exact normalizeSegs_nice _ (fun s hs => splitChar_no_sep '/' raw s hs)
  · apply normalizeSegs_nice
    intro s hs
    rcases List.mem_append.mp hs with h | h
    · exact (hctx s h).2.2.2
    · exact splitChar_no_sep '/' raw s h

theorem roots_nice (ctx : Ctx) (hctx : NiceCtx ctx) :
    ∀ root ∈ getAllowedRoots ctx, NiceSegs root := by
  intro root hroot
  simp only [getAllowedRoots, List.mem_cons, List.mem_singleton,
    List.not_mem_nil, or_false] at hroot
  rcases hroot with rfl | rfl
  · exact resolveP_nice ctx hctx _
  · exact resolveP_nice ctx hctx _

theorem dropCommon_self_append (l e : List Seg) :
    dropCommon l (l ++ e) = ([], e) := by
  induction l with
  | nil => cases e <;> simp [dropCommon]
  | cons a as ih => simp [dropCommon, ih]

theorem dropCommon_fst_ne_nil (a b : List Seg) (h : ¬ a <+: b) :
    (dropCommon a b).1 ≠ [] := by
  induction a generalizing b with
  | nil => exact absurd (List.nil_prefix) h
  | cons x xs ih =>
    cases b with
    | nil => simp [dropCommon]
    | cons y ys =>
      by_cases hxy : x = y
      · subst hxy
        simp only [dropCommon, if_pos rfl]
        exact ih ys (fun hp => h ((List.prefix_cons_inj x).mpr hp))
      · simp [dropCommon, hxy]

theorem joinSegs_cons (s : Seg) (rest : List Seg) (h : rest ≠ []) :
    joinSegs (s :: rest) = s ++ '/' :: joinSegs rest := by
  cases rest with
  | nil => exact absurd rfl h
  | cons t ts => rfl

theorem joinSegs_take_two_dots (xs : List Seg) (rest : List Seg)
    (h : xs = ['.', '.'] :: rest) : (joinSegs xs).take 2 = ['.', '.'] := by
  subst h
  cases rest with
  | nil => rfl
  | cons t ts => rw [joinSegs_cons _ _ (by simp)]; rfl

theorem insideRoot_of_prefix (root : List Seg) (e : List Seg)
    (hnice : NiceSegs e)
    (hfirst : ∀ s ss, e = s :: ss → ¬ s.take 2 = ['.', '.']) :
    insideRoot root (root ++ e) = true := by
  unfold insideRoot relativeSegs
  rw [dropCommon_self_append]
  simp only [List.length_nil, List.replicate_zero, List.nil_append]
  cases e with
  | nil => decide
  | cons h t =>
    have hgood : GoodSeg h := hnice h (List.mem_cons_self h t)
    have hne : h ≠ [] := hgood.1
    have hnslash : '/' ∉ h := hgood.2.2.2
    have hdots : ¬ h.take 2 = ['.', '.'] := hfirst h t rfl
    simp only [Bool.and_eq_true, Bool.not_eq_true', decide_eq_false_iff_not]
    constructor
    · -- take 2 of the joined path is not ".."
      intro hcontra
      cases t with
      | nil =>
        simp only [joinSegs] at hcontra
        exact hdots hcontra
      | cons u us =>
        rw [joinSegs_cons h (u :: us) (by simp)] at hcontra
        cases h with
        | nil => exact hne rfl
        | cons c1 cs =>
          cases cs with
          | nil =>
            -- rel = c1 :: '/' :: …, so take 2 = [c1, '/'] ≠ ['.', '.']
            simp only [List.cons_append, List.nil_append] at hcontra
            have : c1 = '.' ∧ '/' = '.' := by
              constructor
              · exact (List.cons.injEq .. ▸ hcontra).1
              · have h2 := (List.cons.injEq .. ▸ hcontra).2
                exact (List.cons.injEq .. ▸ h2).1
            exact absurd this.2 (by decide)
          | cons c2 cs2 =>
            apply hdots
            simp only [List.cons_append] at hcontra
            have h1 := (List.cons.injEq .. ▸ hcontra).1
            have h2 := (List.cons.injEq .. ▸ (List.cons.injEq .. ▸ hcontra).2).1
            simp [h1, h2]
    · -- the relative path does not start with '/'
      intro hcontra
      cases t with
      | nil =>
        simp only [joinSegs] at hcontra
        exact hnslash (List.mem_of_mem_head? hcontra)
      | cons u us =>
        rw [joinSegs_cons h (u :: us) (by simp)] at hcontra
        cases h with
        | nil => exact hne rfl
        | cons c1 cs =>
          simp only [List.cons_append, List.head?_cons, Option.some.injEq] at hcontra
          exact hnslash (by rw [hcontra]; exact List.mem_cons_self _ _)

theorem prefix_of_insideRoot (root cand : List Seg)
    (h : insideRoot root cand = true) : root <+: cand := by
  by_contra hnp
  have hfst := dropCommon_fst_ne_nil root cand hnp
  unfold insideRoot relativeSegs at h
  simp only [Bool.and_eq_true, Bool.not_eq_true', decide_eq_false_iff_not] at h
  apply h.1
  cases hd : (dropCommon root cand).1 with
  | nil => exact absurd hd hfst
  | cons x xs =>
    exact joinSegs_take_two_dots _
      (List.replicate xs.length ['.', '.'] ++ (dropCommon root cand).2)
      (by simp [List.replicate_succ])


example : resolveP [] "/a/b/../c".toList = ["a".toList, "c".toList] := by decide
example : resolveP ["h".toList] "x/./y".toList = ["h".toList, "x".toList, "y".toList] := by decide
example : relativeSegs ["work".toList] ["work".toList, "..x".toList] = "..x".toList := by decide
example : insideRoot ["work".toList] ["work".toList, "..x".toList] = false := by decide
example : insideRoot ["work".toList] ["work".toList] = true := by decide
example : (resolveSandboxed ⟨[], "/work".toList, "/orca".toList⟩ "/work/a.stl".toList).isOk = true := by decide
example : (resolveSandboxed ⟨[], "/work".toList, "/orca".toList⟩ "/work/../etc".toList).isOk = false := by decide
example : validateFilename "model.stl".toList = .ok () := by decide
example : (validateFilename "a/b".toList).isOk = false := by decide
example : (validateFilename [] ).isOk = false := by decide

theorem norm_resolveP (ctx : Ctx) (hctx : NiceCtx ctx) (raw : JStr) :
    normalizeSegs (resolveP ctx.cwd raw) = resolveP ctx.cwd raw :=
  normalizeSegs_fix _ (resolveP_nice ctx hctx raw)

theorem mem_infix_joinComma (x : JStr) (xs : List JStr) (hx : x ∈ xs) :
    x <:+: joinComma xs := by
  induction xs with
  | nil => simp at hx
  | cons s rest ih =>
    rcases List.mem_cons.mp hx with rfl | h
    · cases rest with
      | nil => exact List.infix_refl _
      | cons u us =>
        exact ⟨[], ',' :: ' ' :: joinComma (u :: us), by simp [joinComma]⟩
    · cases rest with
      | nil => simp at h
      | cons u us =>
        exact List.IsInfix.trans (ih h)
          ⟨s ++ [',', ' '], [], by simp [joinComma]⟩

/-- C1, amended.  The sandbox resolve function, applied to a path whose
normalized absolute form lies under (or equals) one of the two allowed
roots **and whose first segment below that root does not begin with the
two characters `..`**, succeeds and returns a descendant of that root;
and for every path whose normalized form escapes both roots (in
particular any `..` traversal that escapes them), it fails with
AccessDenied whose message includes the raw input, the resolved form,
and the list of permitted roots. -/
theorem resolveSandboxed_c1_amended (ctx : Ctx) (raw : JStr) (hctx : NiceCtx ctx) :
    (∀ root ∈ getAllowedRoots ctx,
       root <+: resolveP ctx.cwd raw →
       (∀ s ss, (resolveP ctx.cwd raw).drop root.length = s :: ss →
          ¬ s.take 2 = ['.', '.']) →
       resolveSandboxed ctx raw = .ok (resolveP ctx.cwd raw) ∧
       root <+: resolveP ctx.cwd raw)
    ∧
    ((∀ root ∈ getAllowedRoots ctx, ¬ root <+: resolveP ctx.cwd raw) →
       resolveSandboxed ctx raw =
         .error (.accessDenied (sandboxMsg raw (resolveP ctx.cwd raw)
           (getAllowedRoots ctx))) ∧
       raw <:+: sandboxMsg raw (resolveP ctx.cwd raw) (getAllowedRoots ctx) ∧
       renderAbs (resolveP ctx.cwd raw) <:+:
         sandboxMsg raw (resolveP ctx.cwd raw) (getAllowedRoots ctx) ∧
       ∀ root ∈ getAllowedRoots ctx,
         renderAbs root <:+:
           sandboxMsg raw (resolveP ctx.cwd raw) (getAllowedRoots ctx)) := by
  have hres : NiceSegs (resolveP ctx.cwd raw) := resolveP_nice ctx hctx raw
  have hnorm := norm_resolveP ctx hctx raw
  constructor
  · intro root hmem hpre hfirst
    obtain ⟨e, he⟩ := hpre
    have hin : insideRoot root (resolveP ctx.cwd raw) = true := by
      rw [← he]
      apply insideRoot_of_prefix root e
      · intro s hs
        exact hres s (by rw [← he]; exact List.mem_append_right root hs)
      · intro s ss hss
        apply hfirst s ss
        rw [← he, List.drop_left, hss]
    refine ⟨?_, ⟨e, he⟩⟩
    unfold resolveSandboxed
    rw [hnorm, if_pos (List.any_eq_true.mpr ⟨root, hmem, hin⟩)]
  · intro hnone
    have hfalse : ((getAllowedRoots ctx).any
        (fun root => insideRoot root (resolveP ctx.cwd raw))) = false := by
      apply List.any_eq_false.mpr
      intro root hmem
      simp only [Bool.not_eq_true]
      cases hv : insideRoot root (resolveP ctx.cwd raw) with
      | false => rfl
      | true => exact absurd (prefix_of_insideRoot root _ hv) (hnone root hmem)
    have herr : resolveSandboxed ctx raw =
        .error (.accessDenied (sandboxMsg raw (resolveP ctx.cwd raw)
          (getAllowedRoots ctx))) := by
      unfold resolveSandboxed
      rw [hnorm, if_neg (by rw [hfalse]; exact Bool.false_ne_true)]
    refine ⟨herr, ?_, ?_, ?_⟩
    · exact ⟨"Access denied: path \"".toList,
        "\" resolves to \"".toList ++ renderAbs (resolveP ctx.cwd raw) ++
        "\" which is outside the allowed directories: ".toList ++
        joinComma ((getAllowedRoots ctx).map renderAbs),
        by simp [sandboxMsg]⟩
    · exact ⟨"Access denied: path \"".toList ++ raw ++ "\" resolves to \"".toList,
        "\" which is outside the allowed directories: ".toList ++
        joinComma ((getAllowedRoots ctx).map renderAbs),
        by simp [sandboxMsg]⟩
    · intro root hmem
      apply List.IsInfix.trans
        (mem_infix_joinComma (renderAbs root) _ (List.mem_map_of_mem renderAbs hmem))
      exact ⟨"Access denied: path \"".toList ++ raw ++ "\" resolves to \"".toList ++
        renderAbs (resolveP ctx.cwd raw) ++
        "\" which is outside the allowed directories: ".toList, [],
        by simp [sandboxMsg]⟩

/-- The concrete configuration used for counterexamples and witnesses:
cwd `/`, WORKDIR `/work`, ORCA_USER_DIR `/orca`. -/
def ctxEx : Ctx := ⟨[], "/work".toList, "/orca".toList⟩

/-- C1 as stated is false on the code: the path `/work/..x` normalizes
to `/work/..x`, which is a descendant of the allowed root `/work`
(leaf filenames may begin with two dots), yet `resolveSandboxed`
rejects it because `relative(root, path)` is `..x`, which starts with
the characters `..`. -/
theorem c1_counterexample :
    resolveP ctxEx.cwd ctxEx.WORKDIR = ["work".toList] ∧
    resolveP ctxEx.cwd "/work/..x".toList = ["work".toList, "..x".toList] ∧
    ["work".toList] <+: resolveP ctxEx.cwd "/work/..x".toList ∧
    resolveSandboxed ctxEx "/work/..x".toList =
      .error (.accessDenied (sandboxMsg "/work/..x".toList
        (resolveP ctxEx.cwd "/work/..x".toList) (getAllowedRoots ctxEx))) :=
  ⟨by decide, by decide, by decide, by rfl⟩

/-- Witness for the amended C1 at concrete inputs. -/
theorem c1_amended_witness :
    (resolveSandboxed ctxEx "/work/a.stl".toList =
        .ok (resolveP ctxEx.cwd "/work/a.stl".toList) ∧
      resolveP ctxEx.cwd ctxEx.WORKDIR <+: resolveP ctxEx.cwd "/work/a.stl".toList) ∧
    (resolveSandboxed ctxEx "/etc/passwd".toList =
        .error (.accessDenied (sandboxMsg "/etc/passwd".toList
          (resolveP ctxEx.cwd "/etc/passwd".toList) (getAllowedRoots ctxEx))) ∧
      "/etc/passwd".toList <:+:
        sandboxMsg "/etc/passwd".toList (resolveP ctxEx.cwd "/etc/passwd".toList)
          (getAllowedRoots ctxEx) ∧
      renderAbs (resolveP ctxEx.cwd "/etc/passwd".toList) <:+:
        sandboxMsg "/etc/passwd".toList (resolveP ctxEx.cwd "/etc/passwd".toList)
          (getAllowedRoots ctxEx) ∧
      ∀ root ∈ getAllowedRoots ctxEx,
        renderAbs root <:+:
          sandboxMsg "/etc/passwd".toList (resolveP ctxEx.cwd "/etc/passwd".toList)
            (getAllowedRoots ctxEx)) := by
  constructor
  · exact (resolveSandboxed_c1_amended ctxEx "/work/a.stl".toList (by decide)).1
      (resolveP ctxEx.cwd ctxEx.WORKDIR) (by decide) (by decide)
      (by intro s ss h; injection h with h1 h2; subst h1; decide)
  · exact (resolveSandboxed_c1_amended ctxEx "/etc/passwd".toList (by decide)).2
      (by decide)

/-- `safeFileExists` (src/utils.ts:127-135): the path is sandboxed
*outside* the try block, then any failure of the filesystem `access`
call (modelled by the oracle `accessOk`) collapses to `false`. -/
def safeFileExists (ctx : Ctx) (accessOk : List Seg → Bool) (filePath : JStr) :
    Except CoreError Bool :=
  match resolveSandboxed ctx filePath with
  | .error e => .error e
  | .ok safe => .ok (accessOk safe)

/-- C2 as stated is false on the code: for a path outside the sandbox,
`safeFileExists` throws the SandboxError raised by `resolveSandboxed`
(which runs before the try/catch) instead of returning `false`. -/
theorem c2_counterexample :
    safeFileExists ctxEx (fun _ => false) "/etc/passwd".toList =
      .error (.accessDenied (sandboxMsg "/etc/passwd".toList
        (normalizeSegs (resolveP ctxEx.cwd "/etc/passwd".toList))
        (getAllowedRoots ctxEx))) := by rfl

/-- C2, amended: `safeFileExists` never throws for paths accepted by the
sandbox — any filesystem access error collapses to `false` — but a
sandbox violation propagates as an AccessDenied error rather than
returning `false`. -/
theorem safeFileExists_c2_amended (ctx : Ctx) (accessOk : List Seg → Bool) (p : JStr) :
    (∀ v, resolveSandboxed ctx p = .ok v →
        safeFileExists ctx accessOk p = .ok (accessOk v)) ∧
    (∀ e, resolveSandboxed ctx p = .error e →
        safeFileExists ctx accessOk p = .error e) := by
  constructor <;> intro x hx <;> simp [safeFileExists, hx]

/-- Witness for the amended C2 at concrete inputs: a sandboxed path whose
access check fails yields `.ok false`; an out-of-sandbox path yields the
propagated AccessDenied error. -/
theorem c2_amended_witness :
    safeFileExists ctxEx (fun _ => false) "/work/a.stl".toList = .ok false ∧
    safeFileExists ctxEx (fun _ => false) "/etc/passwd".toList =
      .error (.accessDenied (sandboxMsg "/etc/passwd".toList
        (normalizeSegs (resolveP ctxEx.cwd "/etc/passwd".toList))
        (getAllowedRoots ctxEx))) := by
  constructor
  · exact (safeFileExists_c2_amended ctxEx (fun _ => false) _).1
      (normalizeSegs (resolveP ctxEx.cwd "/work/a.stl".toList)) (by rfl)
  · exact (safeFileExists_c2_amended ctxEx (fun _ => false) _).2 _ (by rfl)

/-- The characters that the spec singles out as rejected. -/
def badFilenameChars : List Char := ['/', '\\', '$', Char.ofNat 96, ';']

/-- C3: the filename validator fails with AccessDenied for every name
containing `/`, `\`, `$`, a backquote, or `;`, and for the empty string;
and it succeeds for every name whose first character is an ASCII letter,
digit, underscore or hyphen and whose remaining characters are ASCII
letters, digits, underscores, hyphens, periods or spaces. -/
theorem validateFilename_c3 :
    (∀ name c, c ∈ name → c ∈ badFilenameChars →
       validateFilename name = .error (.accessDenied (filenameMsg name))) ∧
    validateFilename [] = .error (.accessDenied (filenameMsg [])) ∧
    (∀ c rest, isFirstSafe c = true → rest.all isRestSafe = true →
       validateFilename (c :: rest) = .ok ()) := by
  have hbad : ∀ c ∈ badFilenameChars, isRestSafe c = false := by decide
  refine ⟨?_, by rfl, ?_⟩
  · intro name c hc hbadc
    have hr : isRestSafe c = false := hbad c hbadc
    have hf : isFirstSafe c = false := by
      cases hfs : isFirstSafe c
      · rfl
      · rw [isRestSafe, hfs] at hr; simp at hr
    have htest : safeFilenameTest name = false := by
      cases name with
      | nil => rfl
      | cons d rest =>
        rcases List.mem_cons.mp hc with rfl | hmem
        · simp [safeFilenameTest, hf]
        · show (isFirstSafe d && rest.all isRestSafe) = false
          cases hfd : isFirstSafe d with
          | false => simp
          | true =>
            rw [Bool.true_and]
            apply List.all_eq_false.mpr
            exact ⟨c, hmem, by simp [hr]⟩
    simp [validateFilename, htest]
  · intro c rest h1 h2
    simp [validateFilename, safeFilenameTest, h1, h2]

/-- Witness for C3 at concrete inputs. -/
theorem c3_witness :
    validateFilename "a/b".toList = .error (.accessDenied (filenameMsg "a/b".toList)) ∧
    validateFilename "model.stl".toList = .ok () := by
  constructor
  · exact validateFilename_c3.1 "a/b".toList '/' (by decide) (by decide)
  · exact validateFilename_c3.2.2 'm' "odel.stl".toList (by decide) (by decide)

theorem splitChar_joinSegs (l : List Seg) (h : ∀ s ∈ l, '/' ∉ s) (hne : l ≠ []) :
    splitChar '/' (joinSegs l) = l := by
  induction l with
  | nil => exact absurd rfl hne
  | cons s rest ih =>
    cases rest with
    | nil => exact splitChar_of_no_sep '/' s (h s (List.mem_cons_self s []))
    | cons u us =>
      rw [joinSegs_cons s (u :: us) (by simp), splitChar_append_cons,
        splitChar_of_no_sep '/' s (h s (List.mem_cons_self s _)),
        ih (fun t ht => h t (List.mem_cons_of_mem s ht)) (by simp)]
      rfl

theorem normalizeSegs_cons_empty (l : List Seg) :
    normalizeSegs ([] :: l) = normalizeSegs l := rfl

theorem resolveP_join (cwd : List Seg) (root : List Seg) (name : Seg)
    (hroot : NiceSegs root) (hname : GoodSeg name) :
    resolveP cwd (renderAbs root ++ '/' :: name) = root ++ [name] := by
  have hraw : renderAbs root ++ '/' :: name =
      '/' :: (joinSegs root ++ '/' :: name) := by simp [renderAbs]
  rw [hraw]
  unfold resolveP
  rw [if_pos (by rfl)]
  have hsplit : splitChar '/' ('/' :: (joinSegs root ++ '/' :: name)) =
      [] :: (splitChar '/' (joinSegs root) ++ [name]) := by
    show (if '/' = '/' then [] :: splitChar '/' (joinSegs root ++ '/' :: name)
      else consHead '/' (splitChar '/' (joinSegs root ++ '/' :: name))) = _
    rw [if_pos rfl, splitChar_append_cons,
      splitChar_of_no_sep '/' name hname.2.2.2]
  rw [hsplit]
  cases hr : root with
  | nil =>
    rw [show splitChar '/' (joinSegs ([] : List Seg)) = [[]] from rfl]
    show normalizeSegs ([] :: [] :: [name]) = [] ++ [name]
    rw [normalizeSegs_cons_empty, normalizeSegs_cons_empty,
      normalizeSegs_fix [name] (by intro s hs; rw [List.mem_singleton.mp hs]; exact hname)]
    rfl
  | cons r rs =>
    rw [← hr, splitChar_joinSegs root (fun s hs => (hroot s hs).2.2.2) (by rw [hr]; simp)]
    rw [normalizeSegs_cons_empty]
    exact normalizeSegs_fix (root ++ [name]) (by
      intro s hs
      rcases List.mem_append.mp hs with hm | hm
      · exact hroot s hm
      · rw [List.mem_singleton.mp hm]; exact hname)

/-- C10: for every filename accepted by `validateFilename` and every
allowed root, joining the name under the root and passing the result to
`resolveSandboxed` succeeds, and the result is the direct child
`root ++ [name]` of that root. -/
theorem validated_join_c10 (ctx : Ctx) (root : List Seg) (name : JStr)
    (hctx : NiceCtx ctx) (hroot : root ∈ getAllowedRoots ctx)
    (hname : validateFilename name = .ok ()) :
    resolveSandboxed ctx (renderAbs root ++ '/' :: name) = .ok (root ++ [name]) := by
  have hrn : NiceSegs root := roots_nice ctx hctx root hroot
  -- unpack the validated name
  have htest : safeFilenameTest name = true := by
    cases hs : safeFilenameTest name
    · unfold validateFilename at hname
      rw [hs] at hname
      simp at hname
    · rfl
  obtain ⟨c, rest, rfl⟩ : ∃ c rest, name = c :: rest := by
    cases name with
    | nil => simp [safeFilenameTest] at htest
    | cons c rest => exact ⟨c, rest, rfl⟩
  have hparts : isFirstSafe c = true ∧ rest.all isRestSafe = true := by
    simpa [safeFilenameTest, Bool.and_eq_true] using htest
  have hnos : '/' ∉ c :: rest := by
    intro hmem
    rcases List.mem_cons.mp hmem with heq | hm
    · rw [← heq] at hparts; exact absurd hparts.1 (by decide)
    · have hall := List.all_eq_true.mp hparts.2 '/' hm
      exact absurd hall (by decide)
  have hcdot : c ≠ '.' := by
    intro heq; rw [heq] at hparts; exact absurd hparts.1 (by decide)
  have hgood : GoodSeg (c :: rest) := by
    refine ⟨by simp, ?_, ?_, hnos⟩
    · intro h
      injection h with h1 _
      exact hcdot h1
    · intro h
      injection h with h1 _
      exact hcdot h1
  have hresolve := resolveP_join ctx.cwd root (c :: rest) hrn hgood
  have hnice : NiceSegs (root ++ [c :: rest]) := by
    intro s hs
    rcases List.mem_append.mp hs with hm | hm
    · exact hrn s hm
    · rw [List.mem_singleton.mp hm]; exact hgood
  have hin : insideRoot root (root ++ [c :: rest]) = true := by
    apply insideRoot_of_prefix root [c :: rest]
    · intro s hs; rw [List.mem_singleton.mp hs]; exact hgood
    · intro s ss hss
      injection hss with h1 _
      rw [← h1]
      intro htk
      simp only [List.take_succ_cons] at htk
      injection htk with h2 _
      exact hcdot h2
  unfold resolveSandboxed
  rw [hresolve, normalizeSegs_fix _ hnice,
    if_pos (List.any_eq_true.mpr ⟨root, hroot, hin⟩)]

/-- Witness for C10 at concrete inputs. -/
theorem c10_witness :
    resolveSandboxed ctxEx
        (renderAbs (resolveP ctxEx.cwd ctxEx.WORKDIR) ++ '/' :: "model.stl".toList) =
      .ok (resolveP ctxEx.cwd ctxEx.WORKDIR ++ ["model.stl".toList]) :=
  validated_join_c10 ctxEx (resolveP ctxEx.cwd ctxEx.WORKDIR) "model.stl".toList
    (by decide) (by decide) (by decide)

/-- Association lookup over a JS object modelled as an ordered list of
own properties (first binding wins, as in JS objects no key repeats). -/
def aLookup {β : Type} (k : JStr) : List (JStr × β) → Option β
  | [] => none
  | (k', v) :: rest => if k' = k then some v else aLookup k rest

/-- JS property assignment `obj[k] = v`: overwrite in place when the key
exists, otherwise append the new binding at the end. -/
def setKeyA {β : Type} (l : List (JStr × β)) (k : JStr) (v : β) : List (JStr × β) :=
  match l with
  | [] => [(k, v)]
  | (k', v') :: rest => if k' = k then (k', v) :: rest else (k', v') :: setKeyA rest k v

/-- Node `path.extname` on a leaf filename: the suffix from the last
`.`, or empty when there is no dot or the only dot is the first char. -/
def extnameJ (name : JStr) : JStr :=
  let afterDot := name.reverse.takeWhile (fun c => !decide (c = '.'))
  if afterDot.length + 1 ≤ name.length then
    if name.length - afterDot.length - 1 = 0 then []
    else name.drop (name.length - afterDot.length - 1)
  else []

/-- JS `String.prototype.endsWith`. -/
def endsWithJ (s suf : JStr) : Bool :=
  decide (s.reverse.take suf.length = suf.reverse)

/-- Node `path.basename(name, ext)`: strip `ext` when it is a proper
nonempty suffix of `name`. -/
def basenameJ (name ext : JStr) : JStr :=
  if ext ≠ [] ∧ ext ≠ name ∧ endsWithJ name ext = true then
    name.take (name.length - ext.length)
  else name

/-- The `_tuned` sibling name computed by `handleUpdateProfileSetting`
(src/index.ts:228-232): `${base}_tuned${ext}`. -/
def tunedName (name : JStr) : JStr :=
  let ext := extnameJ name
  basenameJ name ext ++ "_tuned".toList ++ ext

/-- Node `path.join(dir, name)` for a clean directory and a leaf name. -/
def joinPath (dir name : JStr) : JStr := dir ++ '/' :: name

/-- The dry-run (`dry_run = true`) branch of `handleUpdateProfileSetting`
(src/index.ts:222-244): validate the name, read the profile document at
`dir/name`, overwrite the key, and write the result to the `_tuned`
sibling.  The filesystem is modelled as a map from joined path strings
to parsed profile documents (the JSON stringify/parse round-trip of
src/index.ts:157,234 is abstracted away); the sandbox steps of
safeReadFile/safeWriteFile normalize these paths and are orthogonal to
the frame property stated here. -/
def handleUpdateDry {V : Type} (fs : List (JStr × List (JStr × V)))
    (dir name key : JStr) (v : V) :
    Except CoreError (List (JStr × List (JStr × V))) :=
  match validateFilename name with
  | .error e => .error e
  | .ok () =>
    match aLookup (joinPath dir name) fs with
    | none => .error (.notFound (joinPath dir name))
    | some doc =>
      .ok (setKeyA fs (joinPath dir (tunedName name)) (setKeyA doc key v))

theorem aLookup_setKeyA_same {β : Type} (l : List (JStr × β)) (k : JStr) (v : β) :
    aLookup k (setKeyA l k v) = some v := by
  induction l with
  | nil => simp [setKeyA, aLookup]
  | cons p rest ih =>
    obtain ⟨k', v'⟩ := p
    by_cases h : k' = k
    · simp [setKeyA, h, aLookup]
    · simp [setKeyA, h, aLookup, ih]

theorem aLookup_setKeyA_other {β : Type} (l : List (JStr × β)) (k q : JStr) (v : β)
    (h : q ≠ k) : aLookup q (setKeyA l k v) = aLookup q l := by
  induction l with
  | nil =>
    show (if k = q then some v else none) = none
    rw [if_neg (fun hh => h hh.symm)]
  | cons p rest ih =>
    obtain ⟨k', v'⟩ := p
    by_cases hk : k' = k
    · subst hk
      show aLookup q (if k' = k' then (k', v) :: rest else (k', v') :: setKeyA rest k' v) =
        aLookup q ((k', v') :: rest)
      rw [if_pos rfl]
      show (if k' = q then some v else aLookup q rest) =
        if k' = q then some v' else aLookup q rest
      rw [if_neg (fun hh => h hh.symm), if_neg (fun hh => h hh.symm)]
    · simp [setKeyA, hk, aLookup, ih]

theorem tunedName_ne (name : JStr) : tunedName name ≠ name := by
  intro h
  have hlen := congrArg List.length h
  unfold tunedName at hlen
  simp only [List.length_append] at hlen
  rw [show ("_tuned".toList).length = 6 from rfl] at hlen
  unfold basenameJ at hlen
  split at hlen
  · rw [List.length_take] at hlen
    omega
  · omega

theorem joinPath_inj (dir a b : JStr) (h : joinPath dir a = joinPath dir b) :
    a = b := by
  unfold joinPath at h
  have h2 := List.append_cancel_left h
  injection h2

/-- C5: updating a key in dry-run (copy-on-write) mode leaves the
original file entirely unchanged (and every other file too) and creates
the `_tuned` sibling in which the updated key has the new value and all
other keys keep the value they had in the original document. -/
theorem updateProfile_c5 {V : Type} (fs : List (JStr × List (JStr × V)))
    (dir name key : JStr) (v : V) (doc : List (JStr × V))
    (hname : validateFilename name = .ok ())
    (hread : aLookup (joinPath dir name) fs = some doc) :
    ∃ fs', handleUpdateDry fs dir name key v = .ok fs' ∧
      aLookup (joinPath dir name) fs' = some doc ∧
      (∀ p, p ≠ joinPath dir (tunedName name) → aLookup p fs' = aLookup p fs) ∧
      ∃ doc', aLookup (joinPath dir (tunedName name)) fs' = some doc' ∧
        aLookup key doc' = some v ∧
        (∀ k, k ≠ key → aLookup k doc' = aLookup k doc) := by
  refine ⟨setKeyA fs (joinPath dir (tunedName name)) (setKeyA doc key v), ?_, ?_, ?_, ?_⟩
  · unfold handleUpdateDry
    rw [hname, hread]
  · rw [aLookup_setKeyA_other fs _ _ _
      (fun hh => tunedName_ne name (joinPath_inj dir _ _ hh).symm)]
    exact hread
  · intro p hp
    exact aLookup_setKeyA_other fs _ p _ hp
  · refine ⟨setKeyA doc key v, aLookup_setKeyA_same fs _ _, aLookup_setKeyA_same doc key v, ?_⟩
    intro k hk
    exact aLookup_setKeyA_other doc key k v hk

/-- Witness for C5 at a concrete profile store: updating
`infill_density` from 20 to 40 in dry-run mode. -/
theorem c5_witness :
    ∃ fs', handleUpdateDry
        [(joinPath "/orca/process".toList "p.json".toList,
          [("infill_density".toList, 20), ("speed".toList, 50)])]
        "/orca/process".toList "p.json".toList "infill_density".toList (40 : Nat) =
        .ok fs' ∧
      aLookup (joinPath "/orca/process".toList "p.json".toList) fs' =
        some [("infill_density".toList, 20), ("speed".toList, 50)] ∧
      (∀ p, p ≠ joinPath "/orca/process".toList (tunedName "p.json".toList) →
        aLookup p fs' =
          aLookup p [(joinPath "/orca/process".toList "p.json".toList,
            [("infill_density".toList, 20), ("speed".toList, 50)])]) ∧
      ∃ doc', aLookup (joinPath "/orca/process".toList (tunedName "p.json".toList)) fs' =
          some doc' ∧
        aLookup "infill_density".toList doc' = some 40 ∧
        (∀ k, k ≠ "infill_density".toList →
          aLookup k doc' =
            aLookup k [("infill_density".toList, 20), ("speed".toList, 50)]) :=
  updateProfile_c5 _ _ _ _ _ _ (by decide) (by simp [aLookup])

/-- A minimal JSON field rendering for the audit entry (string escaping
is not modelled; the entry content is irrelevant to the claims). -/
def jsonField (k v : JStr) : JStr :=
  '"' :: k ++ '"' :: ':' :: '"' :: v ++ ['"']

/-- The JSON line built by `auditLog` (src/utils.ts:157-161):
timestamp, action, then the spread detail mapping. -/
def auditEntry (ts action : JStr) (details : List (JStr × JStr)) : JStr :=
  let fields := ("ts".toList, ts) :: ("action".toList, action) :: details
  '\x7b' :: joinComma (fields.map fun p => jsonField p.1 p.2) ++ ['\x7d']

/-- `auditLog` (src/utils.ts:155-167): build the entry and append it to
the log file; a failing append (the filesystem is modelled by the
`appendResult` oracle) is caught and surfaces only as an operational
error-log line (second component), never as a failure of the call. -/
def auditLog (ts action : JStr) (details : List (JStr × JStr))
    (appendResult : JStr → Except JStr Unit) :
    Except CoreError Unit × Option JStr :=
  let entry := auditEntry ts action details
  match appendResult (entry ++ ['\n']) with
  | .ok () => (.ok (), none)
  | .error e => (.ok (), some ("Failed to write audit log".toList ++ e))

/-- C9: the audit-log record operation returns normally for every
timestamp, action, detail mapping and append outcome — in particular
when the underlying append write fails — so an audit-log write error can
never prevent a caller from receiving its result. -/
theorem auditLog_c9 (ts action : JStr) (details : List (JStr × JStr))
    (appendResult : JStr → Except JStr Unit) :
    (auditLog ts action details appendResult).1 = .ok () := by
  cases heq : appendResult (auditEntry ts action details ++ ['\n']) with
  | ok u => cases u; simp [auditLog, heq]
  | error e => simp [auditLog, heq]

/-- The success payload of `handleSliceModel` (src/index.ts:314-330). -/
structure SliceOk where
  output_file : JStr
  stdout : JStr
  stderr : JStr
deriving DecidableEq, Repr

/-- Outcome of the execa subprocess invocation at src/index.ts:303-306.
The execa library (third-party) resolves when the process exits with
code 0 and rejects when the process exits non-zero, cannot be spawned,
or exceeds the timeout; its error object carries the exit code (absent
when the process did not exit normally), the captured stderr (empty for
a spawn failure such as a non-existent binary path), and a message. -/
inductive ExecaOutcome where
  | success (stdout stderr : JStr)
  | nonZeroExit (exitCode : Int) (stdout stderr message : JStr)
  | spawnError (message : JStr)
  | timeoutKill (stdout stderr message : JStr)

/-- JS template interpolation of the optional exit code
(`undefined` when absent). -/
def renderExit : Option Int → JStr
  | none => "undefined".toList
  | some n => (toString n).toList

/-- The CliExecutionError message built at src/index.ts:338-341. -/
def sliceFailMsg (ec : Option Int) (message stderrTrunc : JStr) : JStr :=
  "Slicing failed (exit ".toList ++ renderExit ec ++ "): ".toList ++
    message ++ '\n' :: stderrTrunc

/-- The subprocess part of `handleSliceModel` (src/index.ts:302-343):
on success the captured stdout/stderr are truncated to 2000 characters
(`.slice(0, 2000)`); on an execa rejection a CliExecutionError
(ProcessFailure) is thrown carrying the exit code when the process
exited and the stderr truncated to 2000 characters (empty for a spawn
failure). -/
def handleSliceExec (output_file : JStr) (outcome : ExecaOutcome) :
    Except CoreError SliceOk :=
  match outcome with
  | .success out err => .ok ⟨output_file, out.take 2000, err.take 2000⟩
  | .nonZeroExit c _ err m =>
      .error (.processFailure (sliceFailMsg (some c) m (err.take 2000)) (some c))
  | .spawnError m => .error (.processFailure (sliceFailMsg none m []) none)
  | .timeoutKill _ err m =>
      .error (.processFailure (sliceFailMsg none m (err.take 2000)) none)

/-- C4: the subprocess invocation fails with ProcessFailure whenever the
process exits non-zero, cannot be spawned, or exceeds the timeout;
captured stdout/stderr embedded in the success result or in the error
are truncated to at most 2000 characters; and invoking a non-existent
binary (spawn failure) yields ProcessFailure with no exit code and empty
captured output. -/
theorem handleSliceExec_c4 :
    (∀ f out err, handleSliceExec f (.success out err) =
        .ok ⟨f, out.take 2000, err.take 2000⟩ ∧
      (out.take 2000).length ≤ 2000 ∧ (err.take 2000).length ≤ 2000) ∧
    (∀ f c out err m, handleSliceExec f (.nonZeroExit c out err m) =
        .error (.processFailure (sliceFailMsg (some c) m (err.take 2000)) (some c)) ∧
      (err.take 2000).length ≤ 2000 ∧
      err.take 2000 <:+: sliceFailMsg (some c) m (err.take 2000)) ∧
    (∀ f out err m, handleSliceExec f (.timeoutKill out err m) =
        .error (.processFailure (sliceFailMsg none m (err.take 2000)) none) ∧
      (err.take 2000).length ≤ 2000) ∧
    (∀ f m, handleSliceExec f (.spawnError m) =
        .error (.processFailure (sliceFailMsg none m []) none)) := by
  refine ⟨?_, ?_, ?_, ?_⟩
  · exact fun f out err => ⟨rfl, List.length_take_le 2000 out, List.length_take_le 2000 err⟩
  · intro f c out err m
    refine ⟨rfl, List.length_take_le 2000 err, ?_⟩
    exact ⟨"Slicing failed (exit ".toList ++ renderExit (some c) ++ "): ".toList ++
      m ++ ['\n'], [], by simp [sliceFailMsg]⟩
  · exact fun f out err m => ⟨rfl, List.length_take_le 2000 err⟩
  · exact fun f m => rfl

/-- JS `String.prototype.toLowerCase` restricted to its effect on the
characters reachable here (regex word characters): ASCII A-Z map to
a-z, everything else is unchanged. -/
def jsToLower (c : Char) : Char :=
  if h : 65 ≤ c.toNat ∧ c.toNat ≤ 90 then
    Char.ofNatAux (c.toNat + 32) (by left; omega)
  else c

/-- JS regex `\s` (ASCII portion: space, tab, and the four line/page
control characters). -/
def isWs (c : Char) : Bool :=
  c = ' ' || c = '\t' || c = '\n' || c = '\x0b' || c = '\x0c' || c = '\r'

/-- JS regex `.` (any character except a line terminator). -/
def isDot (c : Char) : Bool :=
  !(c = '\n' || c = '\r' || c = '\u2028' || c = '\u2029')

/-- JS regex `\w`. -/
def isWordJ (c : Char) : Bool := c.isAlpha || c.isDigit || c = '_'

/-- The `[a-zA-Z_]` class opening the generic key capture. -/
def isKeyStart (c : Char) : Bool := c.isAlpha || c = '_'

/-- The `[\d.]` class of the numeric captures. -/
def isDigitDot (c : Char) : Bool := c.isDigit || c = '.'

/-- JS `String.prototype.trimEnd` (ASCII whitespace portion). -/
def jsTrimR (s : JStr) : JStr := (s.reverse.dropWhile isWs).reverse

/-- JS `String.prototype.trim` (ASCII whitespace portion). -/
def jsTrim (s : JStr) : JStr := jsTrimR (s.dropWhile isWs)

/-- Decimal digits to a natural number. -/
def digitsToNat (l : JStr) : Nat :=
  l.foldl (fun n c => n * 10 + (c.toNat - 48)) 0

/-- A JS number as produced by parseFloat/parseInt on a `[\d.]+`
capture: NaN or an exact rational (binary floating point rounding is
not modelled). -/
inductive JNum where
  | nan
  | val (q : ℚ)
deriving DecidableEq, Repr

/-- The rational `ip + fp / 10 ^ n`, built directly in lowest terms so
that the kernel can evaluate it (the `Rat` arithmetic operations are
opaque to it). -/
def decimalRat (ip fp n : Nat) : ℚ :=
  let num := ip * 10 ^ n + fp
  let den := 10 ^ n
  let g := Nat.gcd num den
  ⟨(num / g : Nat), den / g,
    by
      have hden : 0 < den := Nat.pos_pow_of_pos n (by omega)
      have hg : 0 < g := Nat.gcd_pos_of_pos_right num hden
      have : 0 < den / g := Nat.div_pos (Nat.le_of_dvd hden (Nat.gcd_dvd_right num den)) hg
      omega,
    by
      have hden : 0 < den := Nat.pos_pow_of_pos n (by omega)
      have hg : 0 < g := Nat.gcd_pos_of_pos_right num hden
      simpa using Nat.coprime_div_gcd_div_gcd (m := num) (n := den) hg⟩

/-- JS `parseFloat` on a capture made of digits and dots: longest valid
numeric prefix, NaN when it is empty. -/
def parseFloatJs (s : JStr) : JNum :=
  let ip := s.takeWhile (fun c => c.isDigit)
  match s.drop ip.length with
  | '.' :: r2 =>
    let fp := r2.takeWhile (fun c => c.isDigit)
    if ip = [] ∧ fp = [] then .nan
    else .val (decimalRat (digitsToNat ip) (digitsToNat fp) fp.length)
  | _ => if ip = [] then .nan else .val (decimalRat (digitsToNat ip) 0 0)

/-- Case-insensitive literal prefix match (the `/i` flag): returns the
remainder of the subject past the pattern (given in lowercase). -/
def ciMatch : JStr → JStr → Option JStr
  | [], s => some s
  | _ :: _, [] => none
  | p :: ps, c :: cs => if jsToLower c = p then ciMatch ps cs else none

/-- The regex tail `\s*(.+)$` applied to `r`: greedily skip whitespace,
then capture a nonempty run of `.`-characters reaching the end (with
the one-step backtrack JS performs when everything after the whitespace
is empty).  Returns the raw capture. -/
def matchWsValue (r : JStr) : Option JStr :=
  let d := r.dropWhile isWs
  if d = [] then
    match r.getLast? with
    | some c => if isDot c then some [c] else none
    | none => none
  else if d.all isDot then some d else none

/-- The regex tail `.*?=\s*(.+)$`: lazily scan (over `.`-characters)
for an `=` whose remainder matches `\s*(.+)$`. -/
def findEqValue : JStr → Option JStr
  | [] => none
  | c :: rest =>
    if c = '=' then
      match matchWsValue rest with
      | some v => some v
      | none => findEqValue rest
    else if isDot c then findEqValue rest else none

/-- `/^estimated printing time.*?=\s*(.+)$/i` with the `.trim()` the
code applies to the capture (src/unnamed/part_000:211-215). -/
def matchEstimated (body : JStr) : Option JStr :=
  match ciMatch "estimated printing time".toList body with
  | none => none
  | some rest => (findEqValue rest).map jsTrim

/-- `/^filament used\s*\[tag\]\s*=\s*([\d.]+)/i` with parseFloat
(src/unnamed/part_000:218-229), for `tag` either `mm` or `g`. -/
def matchBracketNum (tag : JStr) (body : JStr) : Option JNum :=
  match ciMatch "filament used".toList body with
  | none => none
  | some r1 =>
    match r1.dropWhile isWs with
    | '[' :: r3 =>
      match ciMatch tag r3 with
      | none => none
      | some r4 =>
        match r4 with
        | ']' :: r5 =>
          match r5.dropWhile isWs with
          | '=' :: r7 =>
            let digits := (r7.dropWhile isWs).takeWhile isDigitDot
            if digits = [] then none else some (parseFloatJs digits)
          | _ => none
        | _ => none
    | _ => none

/-- `/^filament cost\s*=\s*([\d.]+)/i` with parseFloat
(src/unnamed/part_000:232-236). -/
def matchCost (body : JStr) : Option JNum :=
  match ciMatch "filament cost".toList body with
  | none => none
  | some r1 =>
    match r1.dropWhile isWs with
    | '=' :: r2 =>
      let digits := (r2.dropWhile isWs).takeWhile isDigitDot
      if digits = [] then none else some (parseFloatJs digits)
    | _ => none

/-- `/^total layers count\s*=\s*(\d+)/i` with `parseInt(_, 10)`
(src/unnamed/part_000:239-243). -/
def matchLayers (body : JStr) : Option Nat :=
  match ciMatch "total layers count".toList body with
  | none => none
  | some r1 =>
    match r1.dropWhile isWs with
    | '=' :: r2 =>
      let digits := (r2.dropWhile isWs).takeWhile (fun c => c.isDigit)
      if digits = [] then none else some (digitsToNat digits)
    | _ => none

/-- Split at the first `=`, when there is one. -/
def splitAtEq : JStr → Option (JStr × JStr)
  | [] => none
  | '=' :: rest => some ([], rest)
  | c :: rest =>
    match splitAtEq rest with
    | none => none
    | some (pre, post) => some (c :: pre, post)

/-- Collapse every whitespace run to a single `_`
(JS `replace(/\s+/g, "_")`); the flag records whether the previous
character was part of a whitespace run. -/
def collapseWsAux : Bool → JStr → JStr
  | _, [] => []
  | inRun, c :: rest =>
    if isWs c then
      if inRun then collapseWsAux true rest
      else '_' :: collapseWsAux true rest
    else c :: collapseWsAux false rest

/-- JS `replace(/\s+/g, "_")`. -/
def collapseWs (s : JStr) : JStr := collapseWsAux false s

/-- The generic-key normalization (src/unnamed/part_000:248):
`key.trim().replace(/\s+/g, "_").toLowerCase()`. -/
def normalizeKey (k : JStr) : JStr := (collapseWs (jsTrim k)).map jsToLower

/-- The generic capture `/^([a-zA-Z_][\w\s]*\w)\s*=\s*(.+)$/`
(src/unnamed/part_000:246).  The group together with the following
`\s*` cannot contain `=`, so the match splits the line at its first
`=`; backtracking forces the (greedy) group to be the right-trimmed
prefix, which must start with a letter or underscore, consist of word
and whitespace characters only, and have at least two characters.
Returns the raw group and the raw `(.+)` capture. -/
def genericKV (body : JStr) : Option (JStr × JStr) :=
  match splitAtEq body with
  | none => none
  | some (pre, post) =>
    match pre with
    | [] => none
    | c :: _ =>
      if isKeyStart c = true ∧ pre.all (fun d => isWordJ d || isWs d) = true ∧
          2 ≤ (jsTrimR pre).length then
        (matchWsValue post).map (fun v => (jsTrimR pre, v))
      else none

/-- The metadata record of `parseGcodeMetadata`
(src/unnamed/part_000:185-192): five well-known typed fields plus the
open mapping of generic string-valued keys. -/
structure GcodeMetadata where
  estimatedTime : Option JStr := none
  filamentUsedMm : Option JNum := none
  filamentUsedG : Option JNum := none
  filamentCost : Option JNum := none
  layerCount : Option Nat := none
  extra : List (JStr × JStr) := []
deriving DecidableEq, Repr

/-- The JS property names of the five well-known fields. -/
def wellKnownNames : List JStr :=
  ["estimatedTime".toList, "filamentUsedMm".toList, "filamentUsedG".toList,
   "filamentCost".toList, "layerCount".toList]

/-- The property names of `Object.prototype`, inherited by the object
literal `meta` through its prototype chain, so that `name in meta` is
true for each of them even when the parser never stored them. -/
def protoProps : List JStr :=
  ["constructor".toList, "hasOwnProperty".toList, "isPrototypeOf".toList,
   "propertyIsEnumerable".toList, "toLocaleString".toList, "toString".toList,
   "valueOf".toList, "__defineGetter__".toList, "__defineSetter__".toList,
   "__lookupGetter__".toList, "__lookupSetter__".toList, "__proto__".toList]

/-- The JS `key in meta` test (src/unnamed/part_000:249): `in` walks the
prototype chain of the object literal, so it holds for a well-known
property once its field has been assigned, for a generic key stored in
`extra`, and for every property name of `Object.prototype`. -/
def metaHasKey (m : GcodeMetadata) (k : JStr) : Bool :=
  (m.estimatedTime.isSome && decide (k = "estimatedTime".toList)) ||
  (m.filamentUsedMm.isSome && decide (k = "filamentUsedMm".toList)) ||
  (m.filamentUsedG.isSome && decide (k = "filamentUsedG".toList)) ||
  (m.filamentCost.isSome && decide (k = "filamentCost".toList)) ||
  (m.layerCount.isSome && decide (k = "layerCount".toList)) ||
  (aLookup k m.extra).isSome ||
  decide (k ∈ protoProps)

/-- What one line of the tail does to the metadata record. -/
inductive MetaUpdate where
  | skip
  | setTime (v : JStr)
  | setMm (x : JNum)
  | setG (x : JNum)
  | setCost (x : JNum)
  | setLayers (n : Nat)
  | generic (k v : JStr)
deriving DecidableEq, Repr

/-- Classify one line (src/unnamed/part_000:205-253): trim, require a
leading `;`, strip the marker and trim, then try the five well-known
patterns in order; if none matches, try the generic capture. -/
def lineBody (body : JStr) : MetaUpdate :=
  match matchEstimated body with
    | some v => .setTime v
    | none =>
      match matchBracketNum "mm".toList body with
      | some x => .setMm x
      | none =>
        match matchBracketNum "g".toList body with
        | some x => .setG x
        | none =>
          match matchCost body with
          | some x => .setCost x
          | none =>
            match matchLayers body with
            | some n => .setLayers n
            | none =>
              match genericKV body with
              | some (k, v) => .generic (normalizeKey k) (jsTrim v)
              | none => .skip

/-- Classify one line (src/unnamed/part_000:205-253 continued): trim,
require the leading `;`, strip the marker, trim, and classify. -/
def lineAction (line : JStr) : MetaUpdate :=
  if (jsTrim line).head? = some ';' then
    lineBody (jsTrim ((jsTrim line).drop 1))
  else .skip

/-- Apply one line's classification: the five well-known fields are
assigned unconditionally, a generic key is stored only when `key in
meta` is false. -/
def applyUpdate (m : GcodeMetadata) : MetaUpdate → GcodeMetadata
  | .skip => m
  | .setTime v => { m with estimatedTime := some v }
  | .setMm x => { m with filamentUsedMm := some x }
  | .setG x => { m with filamentUsedG := some x }
  | .setCost x => { m with filamentCost := some x }
  | .setLayers n => { m with layerCount := some n }
  | .generic k v =>
    if metaHasKey m k then m else { m with extra := m.extra ++ [(k, v)] }

/-- JS `gcode.slice(-n)`. -/
def sliceLast (n : Nat) (s : JStr) : JStr := s.drop (s.length - n)

/-- Process the tail's lines in order over the metadata record. -/
def processLines (m : GcodeMetadata) (lines : List JStr) : GcodeMetadata :=
  lines.foldl (fun acc line => applyUpdate acc (lineAction line)) m

/-- `parseGcodeMetadata` (src/unnamed/part_000:198-256). -/
def parseGcodeMetadata (gcode : JStr) : GcodeMetadata :=
  processLines {} (splitChar '\n' (sliceLast 4096 gcode))

example : lineAction "; filament used [g] = 37.5".toList = .setG (.val (decimalRat 37 5 1)) := by decide
example : lineAction "; total layers count = 150".toList = .setLayers 150 := by decide
example : lineAction "; filament used [mm] = 12.1".toList = .setMm (.val (decimalRat 12 1 1)) := by decide
example : lineAction "; estimated printing time = 1h 23m 45s".toList =
  .setTime "1h 23m 45s".toList := by decide
example : lineAction "; filament cost = 0.25".toList = .setCost (.val (decimalRat 0 25 2)) := by decide
example : lineAction "; nozzle diameter = 0.4".toList =
  .generic "nozzle_diameter".toList "0.4".toList := by decide
example : lineAction "G1 X10 Y20".toList = .skip := by decide
example : lineAction "; a = 1".toList = .skip := by decide
example : parseGcodeMetadata [] = {} := by rfl
example : parseGcodeMetadata "; filament used [g] = 37.5\n; total layers count = 150".toList =
  { filamentUsedG := some (.val (decimalRat 37 5 1)), layerCount := some 150 } := by decide

theorem sliceLast_sliceLast (n : Nat) (s : JStr) :
    sliceLast n (sliceLast n s) = sliceLast n s := by
  unfold sliceLast
  have h : (s.drop (s.length - n)).length - n = 0 := by
    rw [List.length_drop]; omega
  rw [h, List.drop_zero]

/-- C6: the G-code metadata extractor is a total function over strings
(it returns a metadata record for every input, the empty string
included) and it examines only the final 4096 characters of its
input. -/
theorem parseGcode_c6 (g : JStr) :
    parseGcodeMetadata g = parseGcodeMetadata (sliceLast 4096 g) ∧
    parseGcodeMetadata [] = {} := by
  constructor
  · show processLines {} (splitChar '\n' (sliceLast 4096 g)) =
      processLines {} (splitChar '\n' (sliceLast 4096 (sliceLast 4096 g)))
    rw [sliceLast_sliceLast]
  · rfl

/-- The first metadata comment line of the C7 scenario. -/
def gLine1 : JStr := "; filament used [g] = 37.5".toList

/-- The second metadata comment line of the C7 scenario. -/
def gLine2 : JStr := "; total layers count = 150".toList

/-- The two-line tail of the C7 scenario. -/
def gTail : JStr := gLine1 ++ '\n' :: gLine2

theorem lineAction_gLine1 : lineAction gLine1 = .setG (.val (decimalRat 37 5 1)) := by
  decide

theorem lineAction_gLine2 : lineAction gLine2 = .setLayers 150 := by decide

theorem decimalRat_scenario : decimalRat 37 5 1 = 75 / 2 := by
  have h : decimalRat 37 5 1 = Rat.mk' 75 2 (by decide) (by decide) := by decide
  rw [h, Rat.mk'_eq_divInt, Rat.divInt_eq_div]
  norm_num

theorem getLast?_suffix_ne_nil (l t : JStr) (h : t ≠ []) :
    (l ++ t).getLast? = t.getLast? := by
  cases ht : t.getLast? with
  | none => exact absurd (List.getLast?_eq_none_iff.mp ht) h
  | some c => rw [List.getLast?_append, ht]; rfl

theorem processLines_gTail (s : GcodeMetadata) (q : JStr)
    (hq : q = [] ∨ q.getLast? = some '\n') :
    (processLines s (splitChar '\n' (q ++ gTail))).filamentUsedG =
      some (.val (decimalRat 37 5 1)) ∧
    (processLines s (splitChar '\n' (q ++ gTail))).layerCount = some 150 := by
  have hsplitTail : splitChar '\n' gTail = [gLine1, gLine2] := by
    show splitChar '\n' (gLine1 ++ '\n' :: gLine2) = _
    rw [splitChar_append_cons, splitChar_of_no_sep '\n' gLine1 (by decide),
      splitChar_of_no_sep '\n' gLine2 (by decide)]
    rfl
  have hfinal : ∀ m : GcodeMetadata,
      (applyUpdate (applyUpdate m (lineAction gLine1)) (lineAction gLine2)).filamentUsedG =
          some (.val (decimalRat 37 5 1)) ∧
      (applyUpdate (applyUpdate m (lineAction gLine1)) (lineAction gLine2)).layerCount =
          some 150 := by
    intro m
    rw [lineAction_gLine1, lineAction_gLine2]
    exact ⟨rfl, rfl⟩
  rcases hq with rfl | hlast
  · rw [List.nil_append, hsplitTail]
    exact hfinal s
  · have hne : q ≠ [] := by
      intro h
      rw [h] at hlast
      exact Option.noConfusion hlast
    have hgl : q.getLast hne = '\n' := by
      have h2 := List.getLast?_eq_getLast q hne
      rw [h2] at hlast
      injection hlast
    have hdecomp : q.dropLast ++ ['\n'] = q := by
      rw [← hgl]
      exact List.dropLast_append_getLast hne
    rw [← hdecomp]
    have hassoc : (q.dropLast ++ ['\n']) ++ gTail = q.dropLast ++ '\n' :: gTail := by
      simp
    rw [hassoc, splitChar_append_cons, hsplitTail]
    simp only [processLines, List.foldl_append, List.foldl_cons, List.foldl_nil]
    exact hfinal _

set_option maxRecDepth 4000 in
/-- C7: every G-code text formed by a prefix that is empty or ends in a
newline, followed by the two comment lines
`; filament used [g] = 37.5` and `; total layers count = 150`,
parses to a metadata record with filamentUsedG = 37.5 and
layerCount = 150. -/
theorem parseGcode_c7 (p : JStr) (hp : p = [] ∨ p.getLast? = some '\n') :
    (parseGcodeMetadata (p ++ gTail)).filamentUsedG = some (.val (75 / 2)) ∧
    (parseGcodeMetadata (p ++ gTail)).layerCount = some 150 := by
  have hlen : gTail.length = 53 := by decide
  have hwindow : sliceLast 4096 (p ++ gTail) =
      p.drop ((p ++ gTail).length - 4096) ++ gTail := by
    unfold sliceLast
    rw [List.drop_append_eq_append_drop]
    have hz : (p ++ gTail).length - 4096 - p.length = 0 := by
      rw [List.length_append, hlen]
      omega
    rw [hz, List.drop_zero]
  set k := (p ++ gTail).length - 4096 with hk
  have hq : p.drop k = [] ∨ (p.drop k).getLast? = some '\n' := by
    rcases hp with rfl | hlast
    · left
      simp
    · cases hqe : p.drop k with
      | nil => exact Or.inl rfl
      | cons c cs =>
        right
        rw [← hqe]
        have ht : p.take k ++ p.drop k = p := List.take_append_drop k p
        rw [← getLast?_suffix_ne_nil (p.take k) (p.drop k) (by rw [hqe]; simp), ht]
        exact hlast
  have hmain := processLines_gTail {} (p.drop k) hq
  rw [← decimalRat_scenario]
  show (processLines {} (splitChar '\n' (sliceLast 4096 (p ++ gTail)))).filamentUsedG = _ ∧
    (processLines {} (splitChar '\n' (sliceLast 4096 (p ++ gTail)))).layerCount = _
  rw [hwindow]
  exact hmain

/-- Witness for C7 with the empty prefix. -/
theorem c7_witness :
    (parseGcodeMetadata ([] ++ gTail)).filamentUsedG = some (.val (75 / 2)) ∧
    (parseGcodeMetadata ([] ++ gTail)).layerCount = some 150 :=
  parseGcode_c7 [] (Or.inl rfl)

/-- The generic capture a line contributes, if any. -/
def genericOf (line : JStr) : Option (JStr × JStr) :=
  match lineAction line with
  | .generic k v => some (k, v)
  | _ => none

theorem jsToLower_toNat (c : Char) :
    (jsToLower c).toNat =
      if 65 ≤ c.toNat ∧ c.toNat ≤ 90 then c.toNat + 32 else c.toNat := by
  unfold jsToLower
  split
  · rename_i h
    simp only [Char.ofNatAux, Char.toNat]
    simp [UInt32.toNat, UInt32.ofNatCore]
  · rfl

theorem jsToLower_not_upper (c : Char) :
    ¬(65 ≤ (jsToLower c).toNat ∧ (jsToLower c).toNat ≤ 90) := by
  intro hc
  rw [jsToLower_toNat] at hc
  split at hc <;> omega

theorem normalizeKey_not_wellKnown (x : JStr) : normalizeKey x ∉ wellKnownNames := by
  intro hmem
  have hlower : ∀ c ∈ normalizeKey x, ¬(65 ≤ c.toNat ∧ c.toNat ≤ 90) := by
    intro c hc
    unfold normalizeKey at hc
    rw [List.mem_map] at hc
    obtain ⟨d, _, rfl⟩ := hc
    exact jsToLower_not_upper d
  simp only [wellKnownNames, List.mem_cons, List.not_mem_nil, or_false] at hmem
  rcases hmem with h | h | h | h | h
  · exact hlower 'T' (by rw [h]; decide) (by decide)
  · exact hlower 'U' (by rw [h]; decide) (by decide)
  · exact hlower 'U' (by rw [h]; decide) (by decide)
  · exact hlower 'C' (by rw [h]; decide) (by decide)
  · exact hlower 'C' (by rw [h]; decide) (by decide)

theorem lineBody_generic_key (body k v : JStr)
    (h : lineBody body = .generic k v) : ∃ x, k = normalizeKey x := by
  unfold lineBody at h
  split at h
  · exact absurd h (by simp)
  · split at h
    · exact absurd h (by simp)
    · split at h
      · exact absurd h (by simp)
      · split at h
        · exact absurd h (by simp)
        · split at h
          · exact absurd h (by simp)
          · split at h
            · rename_i k' v' heq
              injection h with h1 h2
              exact ⟨k', h1.symm⟩
            · exact absurd h (by simp)

theorem lineAction_generic_key (line k v : JStr)
    (h : lineAction line = .generic k v) : ∃ x, k = normalizeKey x := by
  unfold lineAction at h
  split at h
  · exact lineBody_generic_key _ k v h
  · exact absurd h (by simp)

theorem metaHasKey_eq (m : GcodeMetadata) (k : JStr) (hk : k ∉ wellKnownNames)
    (hkp : k ∉ protoProps) :
    metaHasKey m k = (aLookup k m.extra).isSome := by
  simp only [wellKnownNames, List.mem_cons, List.not_mem_nil, or_false, not_or] at hk
  obtain ⟨h1, h2, h3, h4, h5⟩ := hk
  unfold metaHasKey
  rw [decide_eq_false h1, decide_eq_false h2, decide_eq_false h3,
    decide_eq_false h4, decide_eq_false h5, decide_eq_false hkp]
  simp

theorem metaHasKey_of_proto (m : GcodeMetadata) (k : JStr) (h : k ∈ protoProps) :
    metaHasKey m k = true := by
  unfold metaHasKey
  rw [decide_eq_true h]
  simp

/-- A generic capture whose normalized key is an `Object.prototype`
property name is always dropped: `key in meta` is true through the
prototype chain, so the record is left unchanged. -/
theorem applyUpdate_proto_drop (m : GcodeMetadata) (k v : JStr)
    (h : k ∈ protoProps) : applyUpdate m (.generic k v) = m := by
  show (if metaHasKey m k then m else { m with extra := m.extra ++ [(k, v)] }) = m
  rw [metaHasKey_of_proto m k h]
  rfl

theorem aLookup_append_of_none {β : Type} (l t : List (JStr × β)) (k : JStr)
    (h : aLookup k l = none) : aLookup k (l ++ t) = aLookup k t := by
  induction l with
  | nil => rfl
  | cons p rest ih =>
    obtain ⟨k', v'⟩ := p
    by_cases hk : k' = k
    · simp [aLookup, hk] at h
    · show (if k' = k then some v' else aLookup k (rest ++ t)) = aLookup k t
      rw [if_neg hk]
      apply ih
      have h2 : (if k' = k then some v' else aLookup k rest) = none := h
      rwa [if_neg hk] at h2

theorem aLookup_append_of_some {β : Type} (l t : List (JStr × β)) (k : JStr) (v : β)
    (h : aLookup k l = some v) : aLookup k (l ++ t) = some v := by
  induction l with
  | nil => exact absurd h (by simp [aLookup])
  | cons p rest ih =>
    obtain ⟨k', v'⟩ := p
    by_cases hk : k' = k
    · show (if k' = k then some v' else aLookup k (rest ++ t)) = some v
      have h2 : (if k' = k then some v' else aLookup k rest) = some v := h
      rw [if_pos hk] at h2 ⊢
      exact h2
    · show (if k' = k then some v' else aLookup k (rest ++ t)) = some v
      rw [if_neg hk]
      apply ih
      have h2 : (if k' = k then some v' else aLookup k rest) = some v := h
      rwa [if_neg hk] at h2

theorem processLines_extra_mono (lines : List JStr) (k v : JStr) :
    ∀ s : GcodeMetadata, aLookup k s.extra = some v →
      aLookup k (processLines s lines).extra = some v := by
  induction lines with
  | nil => exact fun s h => h
  | cons line rest ih =>
    intro s h
    show aLookup k (processLines (applyUpdate s (lineAction line)) rest).extra = some v
    apply ih
    cases lineAction line with
    | skip => exact h
    | setTime w => exact h
    | setMm x => exact h
    | setG x => exact h
    | setCost x => exact h
    | setLayers n => exact h
    | generic k' v' =>
      show aLookup k
        (if metaHasKey s k' then s
         else { s with extra := s.extra ++ [(k', v')] }).extra = some v
      split
      · exact h
      · exact aLookup_append_of_some _ _ k v h

theorem processLines_extra_first (lines : List JStr) (k : JStr)
    (hk : k ∉ wellKnownNames) (hkp : k ∉ protoProps) :
    ∀ s : GcodeMetadata, aLookup k s.extra = none →
      aLookup k (processLines s lines).extra =
        aLookup k (lines.filterMap genericOf) := by
  induction lines with
  | nil => intro s hs; exact hs
  | cons line rest ih =>
    intro s hs
    show aLookup k (processLines (applyUpdate s (lineAction line)) rest).extra =
      aLookup k ((line :: rest).filterMap genericOf)
    cases hla : lineAction line with
    | generic k' v' =>
      have hgo : genericOf line = some (k', v') := by
        unfold genericOf; rw [hla]
      rw [List.filterMap_cons, hgo]
      by_cases hkk : k' = k
      · subst hkk
        have hhk : metaHasKey s k' = false := by
          rw [metaHasKey_eq s k' hk hkp, hs]; rfl
        have happ : applyUpdate s (.generic k' v') =
            { s with extra := s.extra ++ [(k', v')] } := by
          show (if metaHasKey s k' then s else _) = _
          rw [hhk]; rfl
        rw [happ]
        have hset : aLookup k'
            ({ s with extra := s.extra ++ [(k', v')] } : GcodeMetadata).extra = some v' := by
          show aLookup k' (s.extra ++ [(k', v')]) = some v'
          rw [aLookup_append_of_none _ _ _ hs]
          simp [aLookup]
        rw [processLines_extra_mono rest k' v' _ hset]
        show some v' = (if k' = k' then some v' else aLookup k' (rest.filterMap genericOf))
        rw [if_pos rfl]
      · have hext : aLookup k (applyUpdate s (.generic k' v')).extra = none := by
          show aLookup k (if metaHasKey s k' then s else
            { s with extra := s.extra ++ [(k', v')] }).extra = none
          split
          · exact hs
          · show aLookup k (s.extra ++ [(k', v')]) = none
            rw [aLookup_append_of_none _ _ _ hs]
            show (if k' = k then some v' else none) = none
            rw [if_neg hkk]
        rw [ih _ hext]
        show aLookup k (rest.filterMap genericOf) =
          (if k' = k then some v' else aLookup k (rest.filterMap genericOf))
        rw [if_neg hkk]
    | skip =>
      have hgo : genericOf line = none := by unfold genericOf; rw [hla]
      rw [List.filterMap_cons, hgo]
      exact ih _ hs
    | setTime w =>
      have hgo : genericOf line = none := by unfold genericOf; rw [hla]
      rw [List.filterMap_cons, hgo]
      exact ih _ hs
    | setMm x =>
      have hgo : genericOf line = none := by unfold genericOf; rw [hla]
      rw [List.filterMap_cons, hgo]
      exact ih _ hs
    | setG x =>
      have hgo : genericOf line = none := by unfold genericOf; rw [hla]
      rw [List.filterMap_cons, hgo]
      exact ih _ hs
    | setCost x =>
      have hgo : genericOf line = none := by unfold genericOf; rw [hla]
      rw [List.filterMap_cons, hgo]
      exact ih _ hs
    | setLayers n =>
      have hgo : genericOf line = none := by unfold genericOf; rw [hla]
      rw [List.filterMap_cons, hgo]
      exact ih _ hs

/-- C8 as stated is false on the code: the line `; constructor = 1`
fits the generic `key = value` shape and its normalized key
`constructor` is not present in the (empty) result, yet even its first
occurrence is silently dropped, because `"constructor" in meta` is true
through the prototype chain of the object literal. -/
theorem c8_counterexample :
    lineAction "; constructor = 1".toList =
      .generic "constructor".toList "1".toList ∧
    ({} : GcodeMetadata).extra = [] ∧
    aLookup "constructor".toList
        (processLines {} ["; constructor = 1".toList]).extra = none := by
  refine ⟨by decide, rfl, by decide⟩

/-- C8, amended: a comment line matching none of the five well-known
patterns but fitting the generic `key = value` shape has its key
normalized (lowercased, whitespace collapsed to underscore, which can
never collide with the five camelCase property names) and is stored as
a string only if the JS `in` test fails — the key must be neither
already present in the result nor an `Object.prototype` property name
such as `constructor` or `__proto__`, which are always dropped.  For
keys that are not prototype property names, starting from a record
without the key, the final binding is the first generic occurrence in
the lines and later duplicates are silently dropped. -/
theorem generic_c8_amended :
    (∀ line k v, lineAction line = .generic k v → k ∉ wellKnownNames) ∧
    (∀ (lines : List JStr) (k : JStr), k ∉ wellKnownNames → k ∉ protoProps →
      ∀ s : GcodeMetadata, aLookup k s.extra = none →
        aLookup k (processLines s lines).extra =
          aLookup k (lines.filterMap genericOf)) ∧
    (∀ (m : GcodeMetadata) (k v : JStr), k ∈ protoProps →
      applyUpdate m (.generic k v) = m) := by
  refine ⟨?_, ?_, ?_⟩
  · intro line k v h
    obtain ⟨x, rfl⟩ := lineAction_generic_key line k v h
    exact normalizeKey_not_wellKnown x
  · intro lines k hk hkp
    exact processLines_extra_first lines k hk hkp
  · intro m k v h
    exact applyUpdate_proto_drop m k v h

example : aLookup "foo".toList
    (processLines {} ["; foo = 1".toList, "; foo = 2".toList]).extra =
  some "1".toList := by decide

example : aLookup "__proto__".toList
    (processLines {} ["; __proto__ = 1".toList]).extra = none := by decide

/-- Witness for the amended C8: a duplicate ordinary generic key keeps
its first value, and a prototype-chain key is dropped. -/
theorem c8_witness :
    "foo".toList ∉ wellKnownNames ∧
    aLookup "foo".toList
        (processLines {} ["; foo = 1".toList, "; foo = 2".toList]).extra =
      aLookup "foo".toList
        (["; foo = 1".toList, "; foo = 2".toList].filterMap genericOf) ∧
    applyUpdate {} (.generic "constructor".toList "1".toList) = {} := by
  refine ⟨?_, ?_, ?_⟩
  · exact generic_c8_amended.1 "; foo = 1".toList "foo".toList "1".toList (by decide)
  · exact generic_c8_amended.2.1 ["; foo = 1".toList, "; foo = 2".toList] "foo".toList
      (generic_c8_amended.1 "; foo = 1".toList "foo".toList "1".toList (by decide))
      (by decide) {} rfl
  · exact generic_c8_amended.2.2 {} "constructor".toList "1".toList (by decide)
